import Mathlib

/-
Verification of the UCB thought selector
(`src/cltl/thoughts/thought_selection/rl_selector.py`).

The Python class `UCB` keeps two dicts `_Q` (per-token mean reward estimate)
and `_N` (per-token update count), a timestep `_t`, an exploration constant
`_c` with decay `_decay`, a state history, a reward history, and the last
selected thought.  We embed the dicts as association lists over `String`
(insertion-ordered, unique keys, first match wins — exactly a Python dict),
floats as `ℝ`, and `np.inf` scores as `none : Option ℝ`.  Fallible
operations (`KeyError`, `ZeroDivisionError`) return `Except`.
-/

set_option maxHeartbeats 1000000

namespace UCB

/-- Errors the modelled Python operations can raise. -/
inductive RLError where
  | keyError : String → RLError
  | zeroDivisionError : RLError
deriving DecidableEq

/-- Lookup in an association list modelling a Python `dict`: first match wins
(dict keys are unique, so this is the entry for the key). -/
def dlookup {α : Type} : List (String × α) → String → Option α
  | [], _ => none
  | p :: rest, k => if p.1 = k then some p.2 else dlookup rest k

/-- Assignment `d[k] = v` on a Python dict: overwrite the entry when the key
is present, append a new entry otherwise (dicts preserve insertion order). -/
def dictSet {α : Type} (d : List (String × α)) (k : String) (v : α) :
    List (String × α) :=
  if (dlookup d k).isSome then d.map fun p => if p.1 = k then (k, v) else p
  else d ++ [(k, v)]

/-- Helper for `pySplit`: scan the characters, accumulating the current token
in reverse; whitespace ends the current token (if any), so empty fragments
never appear. -/
def splitWSAux : List Char → List Char → List (List Char)
  | acc, [] => if acc = [] then [] else [acc.reverse]
  | acc, ch :: rest =>
    if ch.isWhitespace then
      if acc = [] then splitWSAux [] rest
      else acc.reverse :: splitWSAux [] rest
    else splitWSAux (ch :: acc) rest

/-- Python `str.split()` with no argument: split on whitespace runs, dropping
empty fragments. -/
def pySplit (a : String) : List String :=
  (splitWSAux [] a.data).map fun cs => String.mk cs

/-- State of the `UCB` selector: value table `Q`, count table `N`, timestep
`t`, exploration constant `c`, decay rate `decay`, the brain-state and reward
histories, and the last selected thought (the `_last_thought` slot of the
`ThoughtSelector` base class). -/
structure UCBState where
  Q : List (String × ℝ)
  N : List (String × ℕ)
  t : ℕ
  c : ℝ
  decay : ℝ
  state_history : List ℝ
  reward_history : List ℝ
  last_thought : Option String

/-- Construction (`__init__` with `savefile=None`): empty tables, `t = 1`,
`decay = c / tmax`, state history seeded with one brain evaluation `s0`,
reward history seeded with `[0]`.  The initial `last_thought = none` is
modelled from the spec: the `ThoughtSelector` base class (not under `src/`)
initializes the last-thought slot as unset. -/
noncomputable def init (c tmax s0 : ℝ) : UCBState :=
  { Q := [], N := [], t := 1, c := c, decay := c / tmax,
    state_history := [s0], reward_history := [0], last_thought := none }

/-- Method `_uncertainty`: `self._c * np.sqrt(np.log(self._t) / self._N[action])`.
Callers only invoke it for tokens present in `N` with positive count; the
`getD 0` default stands for the guaranteed-present entry. -/
noncomputable def uncertainty (s : UCBState) (e : String) : ℝ :=
  s.c * Real.sqrt (Real.log s.t / ((dlookup s.N e).getD 0 : ℝ))

/-- A numpy score: `none` stands for `np.inf`, `some x` for the finite `x`. -/
abbrev Score := Option ℝ

/-- Strict comparison of numpy scores (`>` on floats with `inf`):
`inf` exceeds every finite value and is not below `inf`. -/
def scoreLt : Score → Score → Prop
  | none, _ => False
  | some _, none => True
  | some x, some y => x < y

/-- Mean of a list of numpy scores, as `np.mean` computes it: infinite if any
entry is infinite, else the sum of the entries divided by their number. -/
noncomputable def npMean (l : List Score) : Score :=
  if l.any fun sc => sc.isNone then none
  else some ((l.filterMap id).sum / (l.length : ℝ))

/-- Body of the inner loop of `select` for one token `elem`: add an unseen
token to both tables with value 0 and count 0, then score it — `np.inf` when
its count is 0, else `Q[elem] + uncertainty(elem)`. -/
noncomputable def scoreElem (s : UCBState) (e : String) : UCBState × Score :=
  let s1 := if (dlookup s.Q e).isSome then s
            else { s with Q := dictSet s.Q e 0, N := dictSet s.N e 0 }
  if (dlookup s1.N e).getD 0 = 0 then (s1, none)
  else (s1, some ((dlookup s1.Q e).getD 0 + uncertainty s1 e))

/-- Inner loop of `select`: score the tokens of one action in order,
threading the table additions. -/
noncomputable def scoreTokens : UCBState → List String → UCBState × List Score
  | s, [] => (s, [])
  | s, e :: rest =>
    let r := scoreElem s e
    let r2 := scoreTokens r.1 rest
    (r2.1, r.2 :: r2.2)

/-- Outer loop of `select`: build `action_scores`, pairing every action with
the `np.mean` of its token scores, threading the table additions. -/
noncomputable def scoreActions : UCBState → List String → UCBState × List (String × Score)
  | s, [] => (s, [])
  | s, a :: rest =>
    let r := scoreTokens s (pySplit a)
    let r2 := scoreActions r.1 rest
    (r2.1, (a, npMean r.2) :: r2.2)

open Classical in
/-- One comparison step of Python `max(..., key=lambda x: x[1])`: the current
best is replaced only when the new element's key is strictly greater. -/
noncomputable def maxStep (best p : String × Score) : String × Score :=
  if scoreLt best.2 p.2 then p else best

/-- Python `max(action_scores, key=lambda x: x[1])`: fold keeping the current
best, so the first maximal element wins.  `none` for the empty list (Python
raises `ValueError` there). -/
noncomputable def argmaxFirst : List (String × Score) → Option (String × Score)
  | [] => none
  | x :: xs => some (xs.foldl maxStep x)

/-- Method `select`, scoring and greedy-max part (the `_preprocess` /
`_postprocess` wrappers of the framework are outside the bandit core):
score all candidate actions, then return the first action with maximal
aggregate score together with the updated table state. -/
noncomputable def select_core (s : UCBState) (actions : List String) :
    Option (String × UCBState) :=
  let r := scoreActions s actions
  match argmaxFirst r.2 with
  | none => none
  | some p => some (p.1, r.1)

/-- Method `select` including its side effect.  Modelled from the spec: the
framework's `_postprocess` (in `cltl.thoughts.api`, not under `src/`) records
the selected action as the last thought; the scoring and the returned action
are `select_core`, straight from the source. -/
noncomputable def select (s : UCBState) (actions : List String) :
    Option (String × UCBState) :=
  match select_core s actions with
  | none => none
  | some (a, s') => some (a, { s' with last_thought := some a })

/-- Loop body of `update_utility`: for each token in order,
`N[elem] += 1` (a `KeyError` if the token has no entry), then
`Q[elem] = Q[elem] + (reward - Q[elem]) / N[elem]` with the incremented
count. -/
noncomputable def update_tokens (reward : ℝ) : UCBState → List String → Except RLError UCBState
  | s, [] => .ok s
  | s, e :: rest =>
    match dlookup s.N e, dlookup s.Q e with
    | some n, some q =>
      update_tokens reward
        { s with N := dictSet s.N e (n + 1),
                 Q := dictSet s.Q e (q + (reward - q) / ((n + 1 : ℕ) : ℝ)) } rest
    | _, _ => .error (.keyError e)

/-- Method `update_utility`: update the value estimate of every token of the
action, then `t += 1` and `c = max(c - decay, 0)`. -/
noncomputable def update_utility (s : UCBState) (action : String) (reward : ℝ) :
    Except RLError UCBState :=
  match update_tokens reward s (pySplit action) with
  | .error e => .error e
  | .ok s' => .ok { s' with t := s'.t + 1, c := max (s'.c - s'.decay) 0 }

/-- Iterate `update_utility` over a list of `(action, reward)` calls,
stopping at the first error. -/
noncomputable def run_updates : UCBState → List (String × ℝ) → Except RLError UCBState
  | s, [] => .ok s
  | s, (a, r) :: rest =>
    match update_utility s a r with
    | .ok s' => run_updates s' rest
    | .error e => .error e

open Classical in
/-- Method `reward_thought`: append the new brain evaluation to the state
history; if a last thought is recorded (Python truthiness: `None` and the
empty string are falsy) and the history has more than one entry, compute
`reward = history[-1] / history[-2]` (`ZeroDivisionError` when the old state
is 0), update the last thought's utility, and append the reward to the
reward history (in that order).  The brain evaluation itself is the external
`BrainEvaluator` collaborator, passed here as the argument. -/
noncomputable def reward_thought (s : UCBState) (brain_state : ℝ) :
    Except RLError UCBState :=
  let h := s.state_history ++ [brain_state]
  let s1 := { s with state_history := h }
  match s.last_thought with
  | none => .ok s1
  | some a =>
    if a = "" then .ok s1
    else if h.length ≤ 1 then .ok s1
    else
      let old_state := h.getD (h.length - 2) 0
      if old_state = 0 then .error .zeroDivisionError
      else
        let reward := h.getLastD 0 / old_state
        match update_utility s1 a reward with
        | .error e => .error e
        | .ok s2 => .ok { s2 with reward_history := s2.reward_history ++ [reward] }

/-- Persisted record (`save` / `load` JSON file): metadata `c`, `t`, `decay`
and per-token entries `(token, value, count, uncertainty)`. -/
structure SaveRecord where
  c : ℝ
  t : ℕ
  decay : ℝ
  data : List (String × ℝ × ℕ × ℝ)

/-- Method `save`: metadata plus, for every token of `Q` whose count is
positive, its value, count and the uncertainty snapshot. -/
noncomputable def save (s : UCBState) : SaveRecord :=
  { c := s.c, t := s.t, decay := s.decay,
    data := s.Q.filterMap fun p =>
      match dlookup s.N p.1 with
      | some (n + 1) => some (p.1, p.2, n + 1, uncertainty s p.1)
      | _ => none }

/-- Loop of `load`: for every record entry, `Q[action] = value` and
`N[action] = count`; the stored uncertainty is ignored. -/
def loadData : UCBState → List (String × ℝ × ℕ × ℝ) → UCBState
  | s, [] => s
  | s, (k, v, n, _) :: rest =>
    loadData { s with Q := dictSet s.Q k v, N := dictSet s.N k n } rest

/-- Method `load` for an existing file: overwrite `c`, `t`, `decay` from the
metadata, then write every record entry into the tables. -/
def load (s : UCBState) (r : SaveRecord) : UCBState :=
  loadData { s with c := r.c, t := r.t, decay := r.decay } r.data

/-- Replace every stored uncertainty field of a record by 0 (used to state
that `load` never reads that field). -/
def scrubUnc (r : SaveRecord) : SaveRecord :=
  { r with data := r.data.map fun e => (e.1, e.2.1, e.2.2.1, 0) }

/-! Association-list lemmas: `dlookup` against `dictSet` and append. -/

theorem dlookup_append_none {α : Type} {d1 d2 : List (String × α)} {k : String}
    (h : dlookup d1 k = none) : dlookup (d1 ++ d2) k = dlookup d2 k := by
  induction d1 with
  | nil => simp
  | cons p rest ih =>
    by_cases hp : p.1 = k
    · simp [dlookup, hp] at h
    · simp only [dlookup, hp, if_false, List.cons_append] at h ⊢
      exact ih h

theorem dlookup_append_some {α : Type} {d1 d2 : List (String × α)} {k : String}
    {v : α} (h : dlookup d1 k = some v) : dlookup (d1 ++ d2) k = some v := by
  induction d1 with
  | nil => simp [dlookup] at h
  | cons p rest ih =>
    by_cases hp : p.1 = k
    · simp only [dlookup, hp, if_true, List.cons_append] at h ⊢
      exact h
    · simp only [dlookup, hp, if_false, List.cons_append] at h ⊢
      exact ih h

theorem dlookup_mapSet_self {α : Type} {d : List (String × α)} {k : String}
    (v : α) (h : (dlookup d k).isSome) :
    dlookup (d.map fun p => if p.1 = k then (k, v) else p) k = some v := by
  induction d with
  | nil => simp [dlookup] at h
  | cons p rest ih =>
    by_cases hp : p.1 = k
    · simp [dlookup, hp]
    · simp only [dlookup, hp, if_false] at h
      simp only [List.map_cons, hp, if_false, dlookup, ih h]

theorem dlookup_mapSet_ne {α : Type} {d : List (String × α)} {k k' : String}
    (v : α) (h : k' ≠ k) :
    dlookup (d.map fun p => if p.1 = k then (k, v) else p) k' = dlookup d k' := by
  induction d with
  | nil => simp
  | cons p rest ih =>
    by_cases hp : p.1 = k
    · have hk : ¬ (k = k') := fun hc => h hc.symm
      simp only [List.map_cons, hp, if_true, dlookup, hk, if_false, ih]
    · simp only [List.map_cons, hp, if_false, dlookup, ih]

theorem dlookup_dictSet {α : Type} (d : List (String × α)) (k k' : String)
    (v : α) :
    dlookup (dictSet d k v) k' = if k' = k then some v else dlookup d k' := by
  unfold dictSet
  by_cases hk : k' = k
  · subst hk
    by_cases hs : (dlookup d k').isSome
    · rw [if_pos hs, if_pos rfl]
      exact dlookup_mapSet_self v hs
    · rw [if_neg hs, if_pos rfl]
      rw [dlookup_append_none (Option.not_isSome_iff_eq_none.mp hs)]
      simp [dlookup]
  · by_cases hs : (dlookup d k).isSome
    · rw [if_pos hs, if_neg hk]
      exact dlookup_mapSet_ne v hk
    · rw [if_neg hs, if_neg hk]
      cases hv : dlookup d k' with
      | none =>
        rw [dlookup_append_none hv]
        have hk2 : ¬ (k = k') := fun hc => hk hc.symm
        simp [dlookup, hk2]
      | some w => exact dlookup_append_some hv

theorem dlookup_mem {α : Type} {d : List (String × α)} {k : String} {v : α}
    (h : dlookup d k = some v) : (k, v) ∈ d := by
  induction d with
  | nil => simp [dlookup] at h
  | cons p rest ih =>
    by_cases hp : p.1 = k
    · simp only [dlookup, hp, if_true, Option.some.injEq] at h
      have hpv : (k, v) = p := by
        rw [← hp, ← h]
      rw [hpv]
      exact List.mem_cons_self _ _
    · simp only [dlookup, hp, if_false] at h
      exact List.mem_cons_of_mem _ (ih h)

/-! Ordering lemmas for numpy scores. -/

theorem scoreLt_trans {a b c : Score} (h1 : scoreLt a b) (h2 : scoreLt b c) :
    scoreLt a c := by
  cases a <;> cases b <;> cases c <;> simp_all [scoreLt] <;> linarith

theorem scoreLt_of_lt_of_not_lt {a b c : Score} (h1 : scoreLt a b)
    (h2 : ¬ scoreLt c b) : scoreLt a c := by
  cases a <;> cases b <;> cases c <;> simp_all [scoreLt] <;> linarith

theorem scoreLt_of_not_lt_of_lt {a b c : Score} (h1 : ¬ scoreLt a b)
    (h2 : scoreLt a c) : scoreLt b c := by
  cases a <;> cases b <;> cases c <;> simp_all [scoreLt] <;> linarith

theorem scoreLt_irrefl (a : Score) : ¬ scoreLt a a := by
  cases a <;> simp [scoreLt]

/-! Spec-side scoring: the claim's description of the UCB1 score, stated
against the table as it is when `select` is called. -/

/-- Token score as the spec words it: a token whose count is 0 (tokens not
yet in the table included, since entries are lazily created with count 0)
scores positive infinity; a token with count `n > 0` scores
`value + explorationConstant * sqrt(ln(timestep) / n)`. -/
noncomputable def tokenScore (s : UCBState) (e : String) : Score :=
  if (dlookup s.N e).getD 0 = 0 then none
  else some ((dlookup s.Q e).getD 0
    + s.c * Real.sqrt (Real.log s.t / ((dlookup s.N e).getD 0 : ℝ)))

/-- Aggregate score of an action as the spec words it: the arithmetic mean of
its tokens' scores. -/
noncomputable def actionScore (s : UCBState) (a : String) : Score :=
  npMean ((pySplit a).map (tokenScore s))

/-- Class invariant of the two tables: a token absent from `Q` has no
positive count in `N` (every operation of the class extends or writes the
two tables together). -/
def TableInv (s : UCBState) : Prop :=
  ∀ k, dlookup s.Q k = none → (dlookup s.N k).getD 0 = 0

/-! Lemmas on `scoreElem`: the in-loop score agrees with the spec-side
`tokenScore`, and scoring one token does not disturb the scores of any
token. -/

theorem scoreElem_fst (s : UCBState) (e : String) :
    (scoreElem s e).1 = if (dlookup s.Q e).isSome then s
      else { s with Q := dictSet s.Q e 0, N := dictSet s.N e 0 } := by
  unfold scoreElem
  by_cases hq : (dlookup s.Q e).isSome <;>
    simp [hq, apply_ite Prod.fst]

theorem scoreElem_snd (s : UCBState) (e : String) (hinv : TableInv s) :
    (scoreElem s e).2 = tokenScore s e := by
  unfold scoreElem tokenScore uncertainty
  by_cases hq : (dlookup s.Q e).isSome
  · simp only [hq, if_true]
    by_cases hn : (dlookup s.N e).getD 0 = 0 <;> simp [hn]
  · have hq0 : dlookup s.Q e = none := Option.not_isSome_iff_eq_none.mp hq
    have hn0 : (dlookup s.N e).getD 0 = 0 := hinv e hq0
    simp [hq, hn0, dlookup_dictSet]

theorem tokenScore_scoreElem (s : UCBState) (e e' : String) (hinv : TableInv s) :
    tokenScore (scoreElem s e).1 e' = tokenScore s e' := by
  rw [scoreElem_fst]
  by_cases hq : (dlookup s.Q e).isSome
  · simp [hq]
  · have hq0 : dlookup s.Q e = none := Option.not_isSome_iff_eq_none.mp hq
    have hn0 : (dlookup s.N e).getD 0 = 0 := hinv e hq0
    simp only [hq, Bool.false_eq_true, if_false]
    by_cases he : e' = e
    · subst he
      simp [tokenScore, dlookup_dictSet, hn0]
    · simp [tokenScore, dlookup_dictSet, he]

theorem TableInv_scoreElem (s : UCBState) (e : String) (hinv : TableInv s) :
    TableInv (scoreElem s e).1 := by
  rw [scoreElem_fst]
  by_cases hq : (dlookup s.Q e).isSome
  · simpa [hq] using hinv
  · simp only [hq, Bool.false_eq_true, if_false]
    intro k hk
    by_cases he : k = e
    · subst he
      simp [dlookup_dictSet] at hk
    · simp only [dlookup_dictSet, he, if_false] at hk ⊢
      exact hinv k hk

theorem actionScore_congr {s1 s : UCBState} (a : String)
    (h : ∀ e, tokenScore s1 e = tokenScore s e) :
    actionScore s1 a = actionScore s a := by
  unfold actionScore
  congr 1
  exact List.map_congr_left fun e _ => h e

theorem scoreTokens_eq (es : List String) :
    ∀ s : UCBState, TableInv s →
      (scoreTokens s es).2 = es.map (tokenScore s) ∧
      (∀ e', tokenScore (scoreTokens s es).1 e' = tokenScore s e') ∧
      TableInv (scoreTokens s es).1 := by
  induction es with
  | nil => intro s hinv; exact ⟨rfl, fun _ => rfl, hinv⟩
  | cons e rest ih =>
    intro s hinv
    have h1 := TableInv_scoreElem s e hinv
    obtain ⟨heq, hts, hti⟩ := ih (scoreElem s e).1 h1
    refine ⟨?_, ?_, ?_⟩
    · show (scoreElem s e).2 :: (scoreTokens (scoreElem s e).1 rest).2 = _
      rw [scoreElem_snd s e hinv, heq, List.map_cons]
      congr 1
      exact List.map_congr_left fun x _ => tokenScore_scoreElem s e x hinv
    · intro e'
      show tokenScore (scoreTokens (scoreElem s e).1 rest).1 e' = _
      rw [hts e', tokenScore_scoreElem s e e' hinv]
    · exact hti

theorem scoreActions_eq (l : List String) :
    ∀ s : UCBState, TableInv s →
      (scoreActions s l).2 = l.map (fun a => (a, actionScore s a)) ∧
      (∀ e', tokenScore (scoreActions s l).1 e' = tokenScore s e') ∧
      TableInv (scoreActions s l).1 := by
  induction l with
  | nil => intro s hinv; exact ⟨rfl, fun _ => rfl, hinv⟩
  | cons a rest ih =>
    intro s hinv
    obtain ⟨hts2, htok, hti⟩ := scoreTokens_eq (pySplit a) s hinv
    obtain ⟨heq, hts, hti2⟩ := ih (scoreTokens s (pySplit a)).1 hti
    refine ⟨?_, ?_, ?_⟩
    · show (a, npMean (scoreTokens s (pySplit a)).2)
        :: (scoreActions (scoreTokens s (pySplit a)).1 rest).2 = _
      rw [hts2, heq, List.map_cons]
      refine congrArg₂ _ rfl ?_
      exact List.map_congr_left fun b _ =>
        congrArg _ (actionScore_congr b htok)
    · intro e'
      show tokenScore (scoreActions (scoreTokens s (pySplit a)).1 rest).1 e' = _
      rw [hts e', htok e']
    · exact hti2

/-! Characterization of the Python `max` fold: the result is the first
element of the list attaining the maximal key. -/

theorem maxStep_pos {x q : String × Score} (h : scoreLt x.2 q.2) :
    maxStep x q = q := by
  unfold maxStep
  rw [if_pos h]

theorem maxStep_neg {x q : String × Score} (h : ¬ scoreLt x.2 q.2) :
    maxStep x q = x := by
  unfold maxStep
  rw [if_neg h]

theorem foldl_maxStep_not_lt (xs : List (String × Score)) :
    ∀ x, ∀ p ∈ x :: xs, ¬ scoreLt (xs.foldl maxStep x).2 p.2 := by
  induction xs with
  | nil =>
    intro x p hp
    simp only [List.mem_singleton] at hp
    subst hp
    exact scoreLt_irrefl _
  | cons q xs ih =>
    intro x p hp
    have hself := ih (maxStep x q) (maxStep x q) (List.mem_cons_self _ _)
    show ¬ scoreLt (xs.foldl maxStep (maxStep x q)).2 p.2
    rcases List.mem_cons.mp hp with rfl | hp2
    · by_cases hstep : scoreLt p.2 q.2
      · rw [maxStep_pos hstep] at hself ⊢
        intro hlt
        exact hself (scoreLt_trans hlt hstep)
      · rw [maxStep_neg hstep] at hself ⊢
        exact hself
    · rcases List.mem_cons.mp hp2 with rfl | hrest
      · by_cases hstep : scoreLt x.2 p.2
        · rw [maxStep_pos hstep] at hself ⊢
          exact hself
        · rw [maxStep_neg hstep] at hself ⊢
          intro hlt
          exact hself (scoreLt_of_lt_of_not_lt hlt hstep)
      · exact ih (maxStep x q) p (List.mem_cons_of_mem _ hrest)

theorem foldl_maxStep_first (xs : List (String × Score)) :
    ∀ x, ∃ l1 l2, x :: xs = l1 ++ (xs.foldl maxStep x) :: l2 ∧
      ∀ p ∈ l1, scoreLt p.2 (xs.foldl maxStep x).2 := by
  induction xs with
  | nil => exact fun x => ⟨[], [], rfl, by simp⟩
  | cons q xs ih =>
    intro x
    obtain ⟨l1, l2, hdec, hlt⟩ := ih (maxStep x q)
    show ∃ L1 L2, x :: q :: xs = L1 ++ (xs.foldl maxStep (maxStep x q)) :: L2 ∧
      ∀ p ∈ L1, scoreLt p.2 (xs.foldl maxStep (maxStep x q)).2
    set r := xs.foldl maxStep (maxStep x q) with hr
    cases l1 with
    | nil =>
      simp only [List.nil_append] at hdec
      injection hdec with h1 h2
      by_cases hstep : scoreLt x.2 q.2
      · refine ⟨[x], xs, ?_, ?_⟩
        · rw [← h1, maxStep_pos hstep]
          rfl
        · intro p hp
          simp only [List.mem_singleton] at hp
          subst hp
          rw [← h1, maxStep_pos hstep]
          exact hstep
      · refine ⟨[], q :: xs, ?_, by simp⟩
        rw [← h1, maxStep_neg hstep]
        rfl
    | cons b l1h =>
      injection hdec with h1 h2
      refine ⟨x :: q :: l1h, l2, ?_, ?_⟩
      · rw [h2]
        rfl
      · intro p hp
        have hb : scoreLt b.2 r.2 := hlt b (List.mem_cons_self _ _)
        rcases List.mem_cons.mp hp with rfl | hp2
        · by_cases hstep : scoreLt p.2 q.2
          · rw [maxStep_pos hstep] at h1
            rw [← h1] at hb
            exact scoreLt_trans hstep hb
          · rw [maxStep_neg hstep] at h1
            rw [← h1] at hb
            exact hb
        · rcases List.mem_cons.mp hp2 with rfl | hrest
          · by_cases hstep : scoreLt x.2 p.2
            · rw [maxStep_pos hstep] at h1
              rw [← h1] at hb
              exact hb
            · rw [maxStep_neg hstep] at h1
              rw [← h1] at hb
              exact scoreLt_of_not_lt_of_lt hstep hb
          · exact hlt p (List.mem_cons_of_mem _ hrest)

theorem argmaxFirst_spec (l : List (String × Score)) (h : l ≠ []) :
    ∃ r, argmaxFirst l = some r ∧ (∀ p ∈ l, ¬ scoreLt r.2 p.2) ∧
      ∃ l1 l2, l = l1 ++ r :: l2 ∧ ∀ p ∈ l1, scoreLt p.2 r.2 := by
  cases l with
  | nil => exact absurd rfl h
  | cons x xs =>
    exact ⟨xs.foldl maxStep x, rfl, foldl_maxStep_not_lt xs x,
      foldl_maxStep_first xs x⟩

theorem map_eq_append_cons {α β : Type} {f : α → β} :
    ∀ {l : List α} {L1 : List β} {p : β} {L2 : List β},
      l.map f = L1 ++ p :: L2 →
      ∃ m1 b m2, l = m1 ++ b :: m2 ∧ f b = p ∧ m1.map f = L1 := by
  intro l
  induction l with
  | nil =>
    intro L1 p L2 h
    rw [List.map_nil] at h
    cases L1 <;> simp at h
  | cons a l ih =>
    intro L1 p L2 h
    cases L1 with
    | nil =>
      simp only [List.map_cons, List.nil_append] at h
      injection h with h1 h2
      exact ⟨[], a, l, rfl, h1, rfl⟩
    | cons c L1h =>
      simp only [List.map_cons, List.cons_append] at h
      injection h with h1 h2
      obtain ⟨m1, b, m2, hl, hfb, hm1⟩ := ih h2
      refine ⟨a :: m1, b, m2, ?_, hfb, ?_⟩
      · rw [hl]
        rfl
      · simp [hm1, h1]

/-- C1: for every table state satisfying the class invariant and every
non-empty list of candidate actions (each a non-empty whitespace-separated
token string), `select` scores each action as the arithmetic mean of its
tokens' scores — a token with count 0 scoring positive infinity, a token
with count `n > 0` scoring
`value + explorationConstant * sqrt(ln(timestep) / n)` — and returns the
action with the maximal aggregate score, ties broken in favor of the action
appearing first in the input order. -/
theorem select_ucb_first_argmax (s : UCBState) (actions : List String)
    (hne : actions ≠ []) (htok : ∀ a ∈ actions, pySplit a ≠ [])
    (hinv : TableInv s) :
    ∃ a s' l1 l2, select s actions = some (a, s') ∧
      actions = l1 ++ a :: l2 ∧
      (∀ b ∈ actions, ¬ scoreLt (actionScore s a) (actionScore s b)) ∧
      (∀ b ∈ l1, scoreLt (actionScore s b) (actionScore s a)) := by
  obtain ⟨hscored, -, -⟩ := scoreActions_eq actions s hinv
  have hsne : (scoreActions s actions).2 ≠ [] := by
    rw [hscored]
    simpa using hne
  obtain ⟨r, hmax, hnotlt, L1, L2, hdec, hless⟩ := argmaxFirst_spec _ hsne
  rw [hscored] at hdec
  obtain ⟨m1, b, m2, hact, hfb, hm1⟩ := map_eq_append_cons hdec
  have hr1 : r.1 = b := by rw [← hfb]
  have hr2 : r.2 = actionScore s b := by rw [← hfb]
  have hsel : select_core s actions = some (r.1, (scoreActions s actions).1) := by
    simp only [select_core]
    rw [hmax]
  have hsel2 : select s actions
      = some (r.1, { (scoreActions s actions).1 with last_thought := some r.1 }) := by
    simp only [select]
    rw [hsel]
  refine ⟨b, { (scoreActions s actions).1 with last_thought := some b },
    m1, m2, ?_, hact, ?_, ?_⟩
  · rw [← hr1]
    exact hsel2
  · intro a ha
    have hmem : (a, actionScore s a) ∈ (scoreActions s actions).2 := by
      rw [hscored]
      exact List.mem_map_of_mem _ ha
    have hn := hnotlt _ hmem
    rw [hr2] at hn
    exact hn
  · intro a ha
    have hmem : (a, actionScore s a) ∈ L1 := by
      rw [← hm1]
      exact List.mem_map_of_mem _ ha
    have hn := hless _ hmem
    rw [hr2] at hn
    exact hn

/-- Concrete fresh bandit state used by the witnesses (empty tables, the
state a selector has right after construction with `c = 2`, `decay = 0`,
one seed state measurement 100). -/
noncomputable def sFresh : UCBState :=
  { Q := [], N := [], t := 1, c := 2, decay := 0,
    state_history := [100], reward_history := [0], last_thought := none }

/-- Witness for C1 at the fresh state and the action list `["x"]`. -/
theorem select_ucb_first_argmax_witness :
    ∃ a s' l1 l2, select sFresh ["x"] = some (a, s') ∧
      (["x"] : List String) = l1 ++ a :: l2 ∧
      (∀ b ∈ (["x"] : List String),
        ¬ scoreLt (actionScore sFresh a) (actionScore sFresh b)) ∧
      (∀ b ∈ l1, scoreLt (actionScore sFresh b) (actionScore sFresh a)) :=
  select_ucb_first_argmax sFresh ["x"] (by decide) (by decide)
    (fun _ _ => rfl)

/-! Lemmas for C4: `select` only ever creates count-0 entries, and every
token of every candidate action ends with an `N` entry. -/

/-- Invariant: every token in `Q` is in `N` (the class always writes the two
tables together). -/
def QNInv (s : UCBState) : Prop :=
  ∀ k, (dlookup s.Q k).isSome → (dlookup s.N k).isSome

theorem scoreElem_N_lookup (s : UCBState) (e k : String) :
    dlookup (scoreElem s e).1.N k = dlookup s.N k ∨
    dlookup (scoreElem s e).1.N k = some 0 := by
  rw [scoreElem_fst]
  by_cases hq : (dlookup s.Q e).isSome
  · simp [hq]
  · simp only [hq, Bool.false_eq_true, if_false]
    by_cases he : k = e
    · subst he
      right
      simp [dlookup_dictSet]
    · left
      simp [dlookup_dictSet, he]

theorem scoreElem_N_isSome (s : UCBState) (e k : String)
    (h : (dlookup s.N k).isSome) : (dlookup (scoreElem s e).1.N k).isSome := by
  rcases scoreElem_N_lookup s e k with heq | heq <;> rw [heq]
  · exact h
  · rfl

theorem scoreElem_N_self (s : UCBState) (e : String) (hqn : QNInv s) :
    (dlookup (scoreElem s e).1.N e).isSome := by
  rw [scoreElem_fst]
  by_cases hq : (dlookup s.Q e).isSome
  · simp only [hq, if_true]
    exact hqn e hq
  · simp [hq, dlookup_dictSet]

theorem QNInv_scoreElem (s : UCBState) (e : String) (hqn : QNInv s) :
    QNInv (scoreElem s e).1 := by
  rw [scoreElem_fst]
  by_cases hq : (dlookup s.Q e).isSome
  · simpa [hq] using hqn
  · simp only [hq, Bool.false_eq_true, if_false]
    intro k hk
    by_cases he : k = e
    · subst he
      simp [dlookup_dictSet]
    · simp only [dlookup_dictSet, he, if_false] at hk ⊢
      exact hqn k hk

theorem scoreTokens_N (es : List String) :
    ∀ s : UCBState, QNInv s →
      QNInv (scoreTokens s es).1 ∧
      (∀ k, dlookup (scoreTokens s es).1.N k = dlookup s.N k ∨
        dlookup (scoreTokens s es).1.N k = some 0) ∧
      (∀ k, (dlookup s.N k).isSome → (dlookup (scoreTokens s es).1.N k).isSome) ∧
      (∀ e ∈ es, (dlookup (scoreTokens s es).1.N e).isSome) := by
  induction es with
  | nil =>
    intro s hqn
    exact ⟨hqn, fun k => Or.inl rfl, fun k h => h, by simp⟩
  | cons e rest ih =>
    intro s hqn
    obtain ⟨ih1, ih2, ih3, ih4⟩ := ih (scoreElem s e).1 (QNInv_scoreElem s e hqn)
    simp only [scoreTokens]
    refine ⟨ih1, ?_, ?_, ?_⟩
    · intro k
      rcases ih2 k with heq | heq
      · rw [heq]
        exact scoreElem_N_lookup s e k
      · exact Or.inr heq
    · intro k h
      exact ih3 k (scoreElem_N_isSome s e k h)
    · intro x hx
      rcases List.mem_cons.mp hx with rfl | hx2
      · exact ih3 x (scoreElem_N_self s x hqn)
      · exact ih4 x hx2

theorem scoreActions_N (l : List String) :
    ∀ s : UCBState, QNInv s →
      QNInv (scoreActions s l).1 ∧
      (∀ k, dlookup (scoreActions s l).1.N k = dlookup s.N k ∨
        dlookup (scoreActions s l).1.N k = some 0) ∧
      (∀ k, (dlookup s.N k).isSome → (dlookup (scoreActions s l).1.N k).isSome) ∧
      (∀ a ∈ l, ∀ e ∈ pySplit a, (dlookup (scoreActions s l).1.N e).isSome) := by
  induction l with
  | nil =>
    intro s hqn
    exact ⟨hqn, fun k => Or.inl rfl, fun k h => h, by simp⟩
  | cons a rest ih =>
    intro s hqn
    obtain ⟨ht1, ht2, ht3, ht4⟩ := scoreTokens_N (pySplit a) s hqn
    obtain ⟨ih1, ih2, ih3, ih4⟩ := ih (scoreTokens s (pySplit a)).1 ht1
    simp only [scoreActions]
    refine ⟨ih1, ?_, ?_, ?_⟩
    · intro k
      rcases ih2 k with heq | heq
      · rw [heq]
        exact ht2 k
      · exact Or.inr heq
    · intro k h
      exact ih3 k (ht3 k h)
    · intro x hx
      rcases List.mem_cons.mp hx with rfl | hx2
      · intro e he
        exact ih3 e (ht4 e he)
      · exact ih4 x hx2

theorem scoreActions_fst (l : List String) :
    ∀ s : UCBState, (scoreActions s l).2.map Prod.fst = l := by
  induction l with
  | nil => intro s; rfl
  | cons a rest ih =>
    intro s
    show Prod.fst (a, _) :: ((scoreActions _ rest).2.map Prod.fst) = a :: rest
    rw [ih]

/-- C4: for a freshly constructed bandit (empty value table) and a non-empty
list of candidate actions, each a non-empty token string (so in particular
at least one action contains an unseen token), `select` returns an action
containing at least one token whose count in the resulting table is 0. -/
theorem select_fresh_returns_unseen (s : UCBState) (actions : List String)
    (hQ : s.Q = []) (hN : s.N = []) (hne : actions ≠ [])
    (htok : ∀ a ∈ actions, pySplit a ≠ []) :
    ∃ a s', select s actions = some (a, s') ∧ a ∈ actions ∧
      ∃ e, e ∈ pySplit a ∧ dlookup s'.N e = some 0 := by
  have hqn : QNInv s := by
    intro k hk
    rw [hQ] at hk
    exact absurd hk (by simp [dlookup])
  have hsne : (scoreActions s actions).2 ≠ [] := by
    intro hcon
    have := scoreActions_fst actions s
    rw [hcon] at this
    exact hne this.symm
  obtain ⟨r, hmax, -, L1, L2, hdec, -⟩ := argmaxFirst_spec _ hsne
  have hrmem : r ∈ (scoreActions s actions).2 := by
    rw [hdec]
    exact List.mem_append_right _ (List.mem_cons_self _ _)
  have hamem : r.1 ∈ actions := by
    rw [← scoreActions_fst actions s]
    exact List.mem_map_of_mem _ hrmem
  have hsel : select_core s actions = some (r.1, (scoreActions s actions).1) := by
    simp only [select_core]
    rw [hmax]
  have hsel2 : select s actions
      = some (r.1, { (scoreActions s actions).1 with last_thought := some r.1 }) := by
    simp only [select]
    rw [hsel]
  obtain ⟨-, hdich, -, hens⟩ := scoreActions_N actions s hqn
  obtain ⟨e, he⟩ := List.exists_mem_of_ne_nil _ (htok r.1 hamem)
  refine ⟨r.1, _, hsel2, hamem, e, he, ?_⟩
  show dlookup (scoreActions s actions).1.N e = some 0
  have hsome := hens r.1 hamem e he
  rcases hdich e with heq | heq
  · rw [heq, hN] at hsome
    simp [dlookup] at hsome
  · exact heq

/-- Witness for C4 at the fresh state and the action list `["x", "y z"]`. -/
theorem select_fresh_returns_unseen_witness :
    ∃ a s', select sFresh ["x", "y z"] = some (a, s') ∧
      a ∈ (["x", "y z"] : List String) ∧
      ∃ e, e ∈ pySplit a ∧ dlookup s'.N e = some 0 :=
  select_fresh_returns_unseen sFresh ["x", "y z"] rfl rfl (by decide) (by decide)

/-! Lemmas on `update_utility`: fields it never touches, the per-token
update, totality under key presence, and the timestep/decay step. -/

theorem update_tokens_fields (reward : ℝ) (es : List String) :
    ∀ s s' : UCBState, update_tokens reward s es = .ok s' →
      s'.t = s.t ∧ s'.c = s.c ∧ s'.decay = s.decay ∧
      s'.state_history = s.state_history ∧
      s'.reward_history = s.reward_history ∧
      s'.last_thought = s.last_thought := by
  induction es with
  | nil =>
    intro s s' h
    simp only [update_tokens, Except.ok.injEq] at h
    subst h
    exact ⟨rfl, rfl, rfl, rfl, rfl, rfl⟩
  | cons e rest ih =>
    intro s s' h
    simp only [update_tokens] at h
    cases hn : dlookup s.N e with
    | none => cases hq : dlookup s.Q e <;> simp [hn, hq] at h
    | some n =>
      cases hq : dlookup s.Q e with
      | none => simp [hn, hq] at h
      | some q =>
        simp only [hn, hq] at h
        have hres := ih _ _ h
        exact hres

theorem update_utility_ok (s : UCBState) (a : String) (r : ℝ) (s' : UCBState)
    (h : update_utility s a r = .ok s') :
    ∃ s1, update_tokens r s (pySplit a) = .ok s1 ∧
      s' = { s1 with t := s1.t + 1, c := max (s1.c - s1.decay) 0 } := by
  unfold update_utility at h
  cases hu : update_tokens r s (pySplit a) with
  | error e => rw [hu] at h; simp at h
  | ok s1 =>
    rw [hu] at h
    simp only [Except.ok.injEq] at h
    exact ⟨s1, rfl, h.symm⟩

theorem update_utility_step (s : UCBState) (a : String) (r : ℝ) (s' : UCBState)
    (h : update_utility s a r = .ok s') :
    s'.t = s.t + 1 ∧ s'.c = max (s.c - s.decay) 0 ∧ s'.decay = s.decay ∧
    s'.state_history = s.state_history ∧
    s'.reward_history = s.reward_history ∧
    s'.last_thought = s.last_thought := by
  obtain ⟨s1, hu, hs⟩ := update_utility_ok s a r s' h
  obtain ⟨ht, hc, hd, hsh, hrh, hlt⟩ := update_tokens_fields r (pySplit a) s s1 hu
  subst hs
  exact ⟨by simp [ht], by simp [hc, hd], hd, hsh, hrh, hlt⟩

theorem max_sub_shift (x y : ℝ) (hy : 0 ≤ y) :
    max (max x 0 - y) 0 = max (x - y) 0 := by
  rcases le_total x 0 with hx | hx
  · rw [max_eq_right hx, max_eq_right (by linarith : x - y ≤ (0:ℝ)),
      max_eq_right (by linarith : (0:ℝ) - y ≤ (0:ℝ))]
  · rw [max_eq_left hx]

/-- C5: across every sequence of successful `update_utility` calls, the
timestep increases by exactly 1 per call, the exploration constant is
non-increasing and never below 0, and the invariant
`explorationConstant_t = max(explorationConstant_0 - decayRate * (t-1), 0)`
holds at every step (the hypotheses say the start state satisfies it with
constant `c0` and that the decay rate is non-negative, as `c / tmax` is at
construction). -/
theorem update_decay_invariant (s0 : UCBState) (calls : List (String × ℝ))
    (s' : UCBState) (c0 : ℝ)
    (hrun : run_updates s0 calls = .ok s')
    (hd : 0 ≤ s0.decay)
    (hinv0 : s0.c = max (c0 - s0.decay * ((s0.t : ℝ) - 1)) 0) :
    s'.t = s0.t + calls.length ∧ s'.decay = s0.decay ∧
    s'.c = max (c0 - s0.decay * ((s'.t : ℝ) - 1)) 0 ∧
    s'.c ≤ s0.c ∧ 0 ≤ s'.c := by
  induction calls generalizing s0 with
  | nil =>
    simp only [run_updates, Except.ok.injEq] at hrun
    subst hrun
    refine ⟨by simp, rfl, hinv0, le_refl _, ?_⟩
    rw [hinv0]
    exact le_max_right _ _
  | cons call rest ih =>
    obtain ⟨a, r⟩ := call
    simp only [run_updates] at hrun
    cases hu : update_utility s0 a r with
    | error e => rw [hu] at hrun; simp at hrun
    | ok s1 =>
      rw [hu] at hrun
      obtain ⟨ht, hc, hdec, -, -, -⟩ := update_utility_step s0 a r s1 hu
      have hd1 : 0 ≤ s1.decay := by rw [hdec]; exact hd
      have hinv1 : s1.c = max (c0 - s1.decay * ((s1.t : ℝ) - 1)) 0 := by
        rw [hc, hinv0, hdec, ht, max_sub_shift _ _ hd]
        push_cast
        ring_nf
      obtain ⟨iht, ihd, ihc, ihle, ihpos⟩ := ih s1 hrun hd1 hinv1
      have hc0 : 0 ≤ s0.c := by
        rw [hinv0]
        exact le_max_right _ _
      refine ⟨?_, by rw [ihd, hdec], by rw [ihc, hdec], ?_, ihpos⟩
      · rw [iht, ht, List.length_cons]
        omega
      · calc s'.c ≤ s1.c := ihle
          _ ≤ s0.c := by
            rw [hc]
            exact max_le (by linarith) hc0

/-- Witness for C5: one successful update on the single-token action `"a"`
from a state with `t = 1`, `c = 2`, `decay = 0` and an entry for `"a"`. -/
noncomputable def sTok : UCBState :=
  { Q := [("a", 0)], N := [("a", 0)], t := 1, c := 2, decay := 0,
    state_history := [100], reward_history := [0], last_thought := some "a" }

theorem update_decay_invariant_witness :
    ∃ s', run_updates sTok [("a", (1 : ℝ))] = .ok s' ∧
      (s'.t = sTok.t + [("a", (1 : ℝ))].length ∧ s'.decay = sTok.decay ∧
       s'.c = max (2 - sTok.decay * ((s'.t : ℝ) - 1)) 0 ∧
       s'.c ≤ sTok.c ∧ 0 ≤ s'.c) := by
  obtain ⟨s', hrun⟩ : ∃ s', run_updates sTok [("a", (1 : ℝ))] = .ok s' := ⟨_, rfl⟩
  refine ⟨s', hrun, ?_⟩
  exact update_decay_invariant sTok [("a", (1 : ℝ))] s' 2 hrun (le_refl _)
    (by norm_num [sTok])

/-! Lemmas for C3: the per-token incremental mean. -/

theorem update_tokens_lookup_zero (r : ℝ) (tok : String) (es : List String) :
    ∀ s s' : UCBState, update_tokens r s es = .ok s' → tok ∉ es →
      dlookup s'.Q tok = dlookup s.Q tok ∧ dlookup s'.N tok = dlookup s.N tok := by
  induction es with
  | nil =>
    intro s s' h _
    simp only [update_tokens, Except.ok.injEq] at h
    subst h
    exact ⟨rfl, rfl⟩
  | cons e rest ih =>
    intro s s' h hmem
    have hetok : ¬ (tok = e) := fun hc => hmem (hc ▸ List.mem_cons_self _ _)
    have hrest : tok ∉ rest := fun hc => hmem (List.mem_cons_of_mem _ hc)
    simp only [update_tokens] at h
    cases hn : dlookup s.N e with
    | none => cases hq : dlookup s.Q e <;> simp [hn, hq] at h
    | some n =>
      cases hq : dlookup s.Q e with
      | none => simp [hn, hq] at h
      | some q =>
        simp only [hn, hq] at h
        obtain ⟨h1, h2⟩ := ih _ _ h hrest
        rw [h1, h2]
        constructor <;> simp [dlookup_dictSet, hetok]

theorem update_tokens_lookup_one (r : ℝ) (tok : String) (es : List String) :
    ∀ (s s' : UCBState) (q : ℝ) (n : ℕ),
      update_tokens r s es = .ok s' → es.count tok = 1 →
      dlookup s.Q tok = some q → dlookup s.N tok = some n →
      dlookup s'.N tok = some (n + 1) ∧
      dlookup s'.Q tok = some (q + (r - q) / ((n + 1 : ℕ) : ℝ)) := by
  induction es with
  | nil =>
    intro s s' q n h hcount _ _
    simp at hcount
  | cons e rest ih =>
    intro s s' q n h hcount hq hn
    simp only [update_tokens] at h
    by_cases he : tok = e
    · cases he
      rw [List.count_cons_self] at hcount
      have hrest : tok ∉ rest := List.count_eq_zero.mp (by omega)
      simp only [hn, hq] at h
      obtain ⟨h1, h2⟩ := update_tokens_lookup_zero r tok rest _ _ h hrest
      rw [h1, h2]
      constructor <;> simp [dlookup_dictSet]
    · rw [List.count_cons_of_ne he] at hcount
      cases hnn : dlookup s.N e with
      | none => cases hqq : dlookup s.Q e <;> simp [hnn, hqq] at h
      | some n0 =>
        cases hqq : dlookup s.Q e with
        | none => simp [hnn, hqq] at h
        | some q0 =>
          simp only [hnn, hqq] at h
          refine ih _ _ q n h hcount ?_ ?_
          · show dlookup (dictSet s.Q e _) tok = some q
            simp [dlookup_dictSet, he, hq]
          · show dlookup (dictSet s.N e _) tok = some n
            simp [dlookup_dictSet, he, hn]

theorem update_utility_token (s : UCBState) (a tok : String) (r : ℝ)
    (s1 : UCBState) (q : ℝ) (n : ℕ)
    (h : update_utility s a r = .ok s1)
    (hcount : (pySplit a).count tok = 1)
    (hq : dlookup s.Q tok = some q) (hn : dlookup s.N tok = some n) :
    dlookup s1.N tok = some (n + 1) ∧
    dlookup s1.Q tok = some (q + (r - q) / ((n + 1 : ℕ) : ℝ)) := by
  obtain ⟨s0, hu, hs⟩ := update_utility_ok s a r s1 h
  obtain ⟨h1, h2⟩ := update_tokens_lookup_one r tok (pySplit a) s s0 q n hu hcount hq hn
  subst hs
  exact ⟨h1, h2⟩

theorem run_updates_token_aux (a tok : String)
    (hcount : (pySplit a).count tok = 1) (rs : List ℝ) :
    ∀ (s s' : UCBState) (q : ℝ) (n : ℕ),
      dlookup s.Q tok = some q → dlookup s.N tok = some n →
      run_updates s (rs.map fun r => (a, r)) = .ok s' →
      dlookup s'.N tok = some (n + rs.length) ∧
      ∃ qf, dlookup s'.Q tok = some qf ∧
        qf * ((n : ℝ) + rs.length) = q * n + rs.sum := by
  induction rs with
  | nil =>
    intro s s' q n hq hn hrun
    simp only [List.map_nil, run_updates, Except.ok.injEq] at hrun
    subst hrun
    refine ⟨by simpa using hn, q, hq, ?_⟩
    simp
  | cons r rest ih =>
    intro s s' q n hq hn hrun
    simp only [List.map_cons, run_updates] at hrun
    cases hu : update_utility s a r with
    | error e => rw [hu] at hrun; simp at hrun
    | ok s1 =>
      simp only [hu] at hrun
      obtain ⟨hN1, hQ1⟩ := update_utility_token s a tok r s1 q n hu hcount hq hn
      obtain ⟨hN, qf, hQ, hqf⟩ := ih s1 s' _ (n + 1) hQ1 hN1 hrun
      refine ⟨?_, qf, hQ, ?_⟩
      · rw [hN, List.length_cons]
        congr 1
        omega
      · simp only [List.length_cons, List.sum_cons]
        have hne : ((n : ℝ) + 1) ≠ 0 := by positivity
        push_cast at hqf ⊢
        calc qf * ((n : ℝ) + (rest.length + 1))
            = qf * ((n : ℝ) + 1 + rest.length) := by ring
          _ = (q + (r - q) / ((n : ℝ) + 1)) * ((n : ℝ) + 1) + rest.sum := hqf
          _ = q * n + r + rest.sum := by field_simp; ring
          _ = q * n + (r + rest.sum) := by ring

/-- C3: for every token occurring exactly once in an action, after `n`
successful `update_utility` calls on that action with rewards `r_1..r_n`,
starting from a fresh entry (value 0, count 0), the token's value is the
arithmetic mean of the rewards and its count is `n` (each call increments
the count and applies `value ← value + (reward - value) / count`). -/
theorem update_utility_arithmetic_mean (a tok : String) (rs : List ℝ)
    (s0 s' : UCBState)
    (hcount : (pySplit a).count tok = 1)
    (hq : dlookup s0.Q tok = some 0) (hn : dlookup s0.N tok = some 0)
    (hrun : run_updates s0 (rs.map fun r => (a, r)) = .ok s') :
    dlookup s'.N tok = some rs.length ∧
    dlookup s'.Q tok = some (rs.sum / (rs.length : ℝ)) := by
  obtain ⟨hN, qf, hQ, hqf⟩ :=
    run_updates_token_aux a tok hcount rs s0 s' 0 0 hq hn hrun
  refine ⟨by simpa using hN, ?_⟩
  cases rs with
  | nil =>
    simp only [List.map_nil, run_updates, Except.ok.injEq] at hrun
    subst hrun
    rw [hq]
    simp
  | cons r rest =>
    have hlen : (((r :: rest).length : ℕ) : ℝ) ≠ 0 := by
      rw [List.length_cons]
      exact Nat.cast_ne_zero.mpr (Nat.succ_ne_zero _)
    have h0 : qf * (((r :: rest).length : ℕ) : ℝ) = (r :: rest).sum := by
      simpa using hqf
    rw [hQ]
    congr 1
    exact (eq_div_iff hlen).mpr h0

/-- Witness for C3: two updates with rewards 2 and 4 on the single-token
action `"a"`; the count becomes 2 and the value the mean 3. -/
theorem update_utility_arithmetic_mean_witness :
    ∃ s', run_updates sTok (([2, 4] : List ℝ).map fun r => ("a", r)) = .ok s' ∧
      dlookup s'.N "a" = some 2 ∧ dlookup s'.Q "a" = some (3 : ℝ) := by
  obtain ⟨s', hrun⟩ :
      ∃ s', run_updates sTok (([2, 4] : List ℝ).map fun r => ("a", r)) = .ok s' :=
    ⟨_, rfl⟩
  obtain ⟨hN, hQ⟩ := update_utility_arithmetic_mean "a" "a" [2, 4] sTok s'
    (by decide) rfl rfl hrun
  refine ⟨s', hrun, hN, ?_⟩
  rw [hQ]
  norm_num

/-! Lemmas for C10: `update_utility` is total exactly on actions whose
tokens all have table entries. -/

theorem update_tokens_total (r : ℝ) (es : List String) :
    ∀ s : UCBState,
      (∀ e ∈ es, (dlookup s.Q e).isSome ∧ (dlookup s.N e).isSome) →
      ∃ s1, update_tokens r s es = .ok s1 := by
  induction es with
  | nil => intro s _; exact ⟨s, rfl⟩
  | cons e rest ih =>
    intro s h
    obtain ⟨hq, hn⟩ := h e (List.mem_cons_self _ _)
    obtain ⟨q, hq'⟩ := Option.isSome_iff_exists.mp hq
    obtain ⟨n, hn'⟩ := Option.isSome_iff_exists.mp hn
    have hrest : ∀ e' ∈ rest,
        (dlookup (dictSet s.Q e (q + (r - q) / ((n + 1 : ℕ) : ℝ))) e').isSome ∧
        (dlookup (dictSet s.N e (n + 1)) e').isSome := by
      intro e' he'
      obtain ⟨hq2, hn2⟩ := h e' (List.mem_cons_of_mem _ he')
      by_cases hee : e' = e
      · cases hee
        constructor <;> simp [dlookup_dictSet]
      · constructor <;> simp [dlookup_dictSet, hee, hq2, hn2]
    obtain ⟨s1, hs1⟩ := ih
      { s with N := dictSet s.N e (n + 1),
               Q := dictSet s.Q e (q + (r - q) / ((n + 1 : ℕ) : ℝ)) } hrest
    refine ⟨s1, ?_⟩
    simp only [update_tokens, hn', hq']
    exact hs1

/-- C10: `update_utility` never creates table entries.  On an action with a
token that has no entry it fails with a `KeyError` (shown at the concrete
fresh state and action `"x"`); under the precondition that every token of
the action has entries in both tables, its lookups are total and the call
succeeds. -/
theorem update_utility_key_contract (s : UCBState) (a : String) (r : ℝ)
    (h : ∀ e ∈ pySplit a, (dlookup s.Q e).isSome ∧ (dlookup s.N e).isSome) :
    (∃ s', update_utility s a r = .ok s') ∧
    update_utility sFresh "x" 1 = .error (.keyError "x") := by
  constructor
  · obtain ⟨s1, hs1⟩ := update_tokens_total r (pySplit a) s h
    refine ⟨{ s1 with t := s1.t + 1, c := max (s1.c - s1.decay) 0 }, ?_⟩
    simp only [update_utility, hs1]
  · rfl

/-- Witness for C10 at the single-entry state `sTok` and action `"a"`. -/
theorem update_utility_key_contract_witness :
    (∃ s', update_utility sTok "a" (1 : ℝ) = .ok s') ∧
    update_utility sFresh "x" 1 = .error (.keyError "x") :=
  update_utility_key_contract sTok "a" 1 (by
    intro e he
    rw [show pySplit "a" = ["a"] from by decide] at he
    simp only [List.mem_singleton] at he
    subst he
    exact ⟨rfl, rfl⟩)

/-! Index helpers for the state-history accesses `[-1]` and `[-2]` of
`reward_thought`. -/

theorem getD_append_left {α : Type} (l l' : List α) (d : α) (n : ℕ)
    (h : n < l.length) : (l ++ l').getD n d = l.getD n d := by
  induction l generalizing n with
  | nil => simp at h
  | cons x rest ih =>
    cases n with
    | zero => rfl
    | succ m =>
      show (rest ++ l').getD m d = rest.getD m d
      exact ih m (by simpa using h)

theorem getD_length_sub_one {α : Type} :
    ∀ (l : List α) (d : α), l ≠ [] → l.getD (l.length - 1) d = l.getLastD d := by
  intro l
  induction l with
  | nil => intro d h; exact absurd rfl h
  | cons x rest ih =>
    intro d _
    cases rest with
    | nil => rfl
    | cons y t =>
      show (x :: y :: t).getD ((y :: t).length) d = (x :: y :: t).getLastD d
      rw [List.getLastD_cons]
      show (y :: t).getD ((y :: t).length - 1) d = (y :: t).getLastD x
      rw [ih d (List.cons_ne_nil _ _)]
      rw [List.getLastD_cons, List.getLastD_cons]

/-- The old state read by `reward_thought` — index `length - 2` of the
extended history — is the last entry of the original history. -/
theorem old_state_eq (l : List ℝ) (v : ℝ) (h : l ≠ []) :
    (l ++ [v]).getD ((l ++ [v]).length - 2) 0 = l.getLastD 0 := by
  have hpos : 0 < l.length := List.length_pos.mpr h
  have hidx : (l ++ [v]).length - 2 = l.length - 1 := by
    rw [List.length_append, List.length_singleton]
    omega
  rw [hidx, getD_append_left _ _ _ _ (by omega)]
  exact getD_length_sub_one l 0 h

/-- C2: in every state where a last action is recorded (a non-empty action
string) and the old state (last history entry) is non-zero, a successful
`reward_thought` appends the new evaluation to the state history, computes
`reward = newState / oldState` with `oldState` the second-to-last entry of
the extended history, updates the last action's utility with that reward,
and then appends the reward to the reward history. -/
theorem reward_thought_ratio (s : UCBState) (v : ℝ) (a : String) (s2 : UCBState)
    (h1 : s.last_thought = some a) (h2 : a ≠ "")
    (h3 : s.state_history ≠ [])
    (h4 : s.state_history.getLastD 0 ≠ 0)
    (h5 : update_utility { s with state_history := s.state_history ++ [v] } a
        (v / s.state_history.getLastD 0) = .ok s2) :
    reward_thought s v = .ok
      { s2 with reward_history :=
          s2.reward_history ++ [v / s.state_history.getLastD 0] } := by
  have hlen : ¬ ((s.state_history ++ [v]).length ≤ 1) := by
    rw [List.length_append, List.length_singleton]
    have hpos : 0 < s.state_history.length := List.length_pos.mpr h3
    omega
  simp only [reward_thought, h1]
  rw [if_neg h2, if_neg hlen, old_state_eq _ _ h3, if_neg h4,
    List.getLastD_concat]
  rw [h1] at h5
  rw [h5]

/-- Witness for C2: from `sTok` (state history `[100]`, last thought `"a"`),
rewarding with the new evaluation 120 yields the reward `120 / 100 = 1.2`
appended to the reward history. -/
theorem reward_thought_ratio_witness :
    ∃ s2, reward_thought sTok 120 = .ok s2 ∧
      s2.reward_history = [(0 : ℝ), 120 / 100] ∧ ((120 : ℝ) / 100 = 1.2) := by
  obtain ⟨su, h5⟩ : ∃ su, update_utility
      { sTok with state_history := sTok.state_history ++ [120] } "a"
      (120 / sTok.state_history.getLastD 0) = .ok su := ⟨_, rfl⟩
  have hmain := reward_thought_ratio sTok 120 "a" su rfl (by decide)
    (List.cons_ne_nil _ _) (by show (100 : ℝ) ≠ 0; norm_num) h5
  refine ⟨_, hmain, ?_, by norm_num⟩
  obtain ⟨-, -, -, -, hrh, -⟩ := update_utility_step _ _ _ _ h5
  show su.reward_history ++ [120 / sTok.state_history.getLastD 0]
    = [(0 : ℝ), 120 / 100]
  rw [hrh]
  exact rfl

/-- C8: in every state where no last action is recorded, `reward_thought`
appends exactly one entry to the state history, raises no error, and leaves
the value table, timestep, exploration constant and reward history
unchanged (the result is the input state with only `state_history`
extended). -/
theorem reward_thought_no_selection (s : UCBState) (v : ℝ)
    (h : s.last_thought = none) :
    reward_thought s v = .ok { s with state_history := s.state_history ++ [v] } := by
  simp only [reward_thought, h]

/-- Witness for C8 at the fresh state. -/
theorem reward_thought_no_selection_witness :
    reward_thought sFresh 7 = .ok
      { sFresh with state_history := sFresh.state_history ++ [7] } :=
  reward_thought_no_selection sFresh 7 rfl

/-- C9: in every state where a last action is recorded (a non-empty action
string) and the old state — the second-to-last entry of the extended
history, i.e. the last entry of the current history — is 0,
`reward_thought` fails with a division-by-zero error instead of silently
coercing the reward. -/
theorem reward_thought_zero_division (s : UCBState) (v : ℝ) (a : String)
    (h1 : s.last_thought = some a) (h2 : a ≠ "")
    (h3 : s.state_history ≠ [])
    (h4 : s.state_history.getLastD 0 = 0) :
    reward_thought s v = .error .zeroDivisionError := by
  have hlen : ¬ ((s.state_history ++ [v]).length ≤ 1) := by
    rw [List.length_append, List.length_singleton]
    have hpos : 0 < s.state_history.length := List.length_pos.mpr h3
    omega
  simp only [reward_thought, h1]
  rw [if_neg h2, if_neg hlen, old_state_eq _ _ h3, if_pos h4]

/-- Concrete state whose last history entry is 0, for the C9 witness. -/
noncomputable def sZero : UCBState :=
  { Q := [("a", 0)], N := [("a", 0)], t := 1, c := 2, decay := 0,
    state_history := [0], reward_history := [0], last_thought := some "a" }

/-- Witness for C9 at `sZero`. -/
theorem reward_thought_zero_division_witness :
    reward_thought sZero 5 = .error .zeroDivisionError :=
  reward_thought_zero_division sZero 5 "a" rfl (by decide)
    (List.cons_ne_nil _ _) rfl

/-! Persistence lemmas (C6, C7): what `loadData` writes and what `save`
emits. -/

theorem loadData_params (es : List (String × ℝ × ℕ × ℝ)) :
    ∀ s : UCBState, (loadData s es).c = s.c ∧ (loadData s es).t = s.t ∧
      (loadData s es).decay = s.decay := by
  induction es with
  | nil => intro s; exact ⟨rfl, rfl, rfl⟩
  | cons hd rest ih =>
    intro s
    obtain ⟨k0, v0, n0, u0⟩ := hd
    exact ih _

theorem loadData_not_mem (es : List (String × ℝ × ℕ × ℝ)) :
    ∀ (s : UCBState) (k : String), (∀ e ∈ es, e.1 ≠ k) →
      dlookup (loadData s es).Q k = dlookup s.Q k ∧
      dlookup (loadData s es).N k = dlookup s.N k := by
  induction es with
  | nil => intro s k _; exact ⟨rfl, rfl⟩
  | cons hd rest ih =>
    intro s k hne
    obtain ⟨k0, v0, n0, u0⟩ := hd
    have hk0 : k0 ≠ k := hne _ (List.mem_cons_self _ _)
    have hkk : ¬ (k = k0) := fun hc => hk0 hc.symm
    simp only [loadData]
    obtain ⟨h1, h2⟩ := ih { s with Q := dictSet s.Q k0 v0, N := dictSet s.N k0 n0 }
      k (fun e he => hne e (List.mem_cons_of_mem _ he))
    rw [h1, h2]
    constructor <;> simp [dlookup_dictSet, hkk]

theorem loadData_mem (es : List (String × ℝ × ℕ × ℝ)) :
    ∀ (s : UCBState) (k : String) (v : ℝ) (n : ℕ) (u : ℝ),
      (es.map fun e => e.1).Nodup → (k, v, n, u) ∈ es →
      dlookup (loadData s es).Q k = some v ∧
      dlookup (loadData s es).N k = some n := by
  induction es with
  | nil => intro s k v n u _ hmem; simp at hmem
  | cons hd rest ih =>
    intro s k v n u hnd hmem
    obtain ⟨k0, v0, n0, u0⟩ := hd
    rw [List.map_cons, List.nodup_cons] at hnd
    rcases List.mem_cons.mp hmem with heq | htail
    · injection heq with hk hrest1
      injection hrest1 with hv hrest2
      injection hrest2 with hn hu
      subst hk
      subst hv
      subst hn
      have habs : ∀ e ∈ rest, e.1 ≠ k := by
        intro e he hc
        refine hnd.1 ?_
        show k ∈ List.map (fun e => e.1) rest
        rw [← hc]
        exact List.mem_map_of_mem _ he
      simp only [loadData]
      obtain ⟨h1, h2⟩ := loadData_not_mem rest
        { s with Q := dictSet s.Q k v, N := dictSet s.N k n } k habs
      rw [h1, h2]
      constructor <;> simp [dlookup_dictSet]
    · simp only [loadData]
      exact ih { s with Q := dictSet s.Q k0 v0, N := dictSet s.N k0 n0 }
        k v n u hnd.2 htail

theorem loadData_scrub (es : List (String × ℝ × ℕ × ℝ)) :
    ∀ s : UCBState,
      loadData s (es.map fun e => (e.1, e.2.1, e.2.2.1, (0 : ℝ))) = loadData s es := by
  induction es with
  | nil => intro s; rfl
  | cons hd rest ih =>
    intro s
    obtain ⟨k0, v0, n0, u0⟩ := hd
    exact ih _

/-- Entries written by `save`: every token of `Q` with positive count is
emitted with its value, count and uncertainty snapshot. -/
theorem save_mem (s : UCBState) (k : String) (q : ℝ) (n : ℕ)
    (hq : dlookup s.Q k = some q) (hn : dlookup s.N k = some n)
    (hpos : 0 < n) :
    (k, q, n, uncertainty s k) ∈ (save s).data := by
  obtain ⟨m, rfl⟩ := Nat.exists_eq_add_of_lt hpos
  rw [zero_add] at hn ⊢
  refine List.mem_filterMap.mpr ⟨(k, q), dlookup_mem hq, ?_⟩
  simp only [hn]

/-- Keys of a key-preserving `filterMap` form a sublist of the input keys. -/
theorem filterMap_keys_sublist {β : Type} (f : String × ℝ → Option (String × β))
    (hf : ∀ p b, f p = some b → b.1 = p.1) :
    ∀ l : List (String × ℝ),
      List.Sublist ((l.filterMap f).map fun e => e.1) (l.map Prod.fst) := by
  intro l
  induction l with
  | nil => simp
  | cons p rest ih =>
    cases hfp : f p with
    | none =>
      rw [List.filterMap_cons_none hfp]
      exact ih.cons _
    | some b =>
      rw [List.filterMap_cons_some hfp, List.map_cons, List.map_cons,
        hf p b hfp]
      exact ih.cons₂ _

/-- The keys of the record written by `save` are a sublist of the keys of
`Q`, hence duplicate-free when `Q`'s keys are. -/
theorem save_keys_nodup (s : UCBState) (hnd : (s.Q.map Prod.fst).Nodup) :
    ((save s).data.map fun e => e.1).Nodup := by
  refine ((filterMap_keys_sublist _ ?_ s.Q).nodup hnd :
    ((save s).data.map fun e => e.1).Nodup)
  intro p b hb
  cases hpn : dlookup s.N p.1 with
  | none => simp [hpn] at hb
  | some m =>
    cases m with
    | zero => simp [hpn] at hb
    | succ m0 =>
      simp only [hpn] at hb
      injection hb with hb2
      rw [← hb2]

/-- C6: saving a bandit and loading the record into a fresh instance
reproduces, for every token with positive count, the identical value and
count, and the identical hyperparameters; the stored uncertainty field is
never read back (scrubbing it from the record does not change the result of
`load`). -/
theorem save_load_roundtrip (s fresh : UCBState)
    (hfQ : fresh.Q = []) (hfN : fresh.N = [])
    (hnd : (s.Q.map Prod.fst).Nodup)
    (k : String) (q : ℝ) (n : ℕ)
    (hq : dlookup s.Q k = some q) (hn : dlookup s.N k = some n)
    (hpos : 0 < n) :
    (load fresh (save s)).c = s.c ∧ (load fresh (save s)).t = s.t ∧
    (load fresh (save s)).decay = s.decay ∧
    dlookup (load fresh (save s)).Q k = some q ∧
    dlookup (load fresh (save s)).N k = some n ∧
    load fresh (scrubUnc (save s)) = load fresh (save s) := by
  obtain ⟨hc, ht, hd⟩ := loadData_params (save s).data
    { fresh with c := (save s).c, t := (save s).t, decay := (save s).decay }
  obtain ⟨hQk, hNk⟩ := loadData_mem (save s).data
    { fresh with c := (save s).c, t := (save s).t, decay := (save s).decay }
    k q n (uncertainty s k) (save_keys_nodup s hnd)
    (save_mem s k q n hq hn hpos)
  exact ⟨hc, ht, hd, hQk, hNk, loadData_scrub (save s).data _⟩

/-- Concrete saved state for the C6 witness: token `"a"` with value 3 and
count 2. -/
noncomputable def sSaved : UCBState :=
  { Q := [("a", 3)], N := [("a", 2)], t := 5, c := 2, decay := 0,
    state_history := [100], reward_history := [0], last_thought := none }

/-- Witness for C6: round trip of `sSaved` through a fresh instance. -/
theorem save_load_roundtrip_witness :
    (load sFresh (save sSaved)).c = sSaved.c ∧
    (load sFresh (save sSaved)).t = sSaved.t ∧
    (load sFresh (save sSaved)).decay = sSaved.decay ∧
    dlookup (load sFresh (save sSaved)).Q "a" = some 3 ∧
    dlookup (load sFresh (save sSaved)).N "a" = some 2 ∧
    load sFresh (scrubUnc (save sSaved)) = load sFresh (save sSaved) :=
  save_load_roundtrip sSaved sFresh rfl rfl (by simp [sSaved])
    "a" 3 2 rfl rfl (by norm_num)

/-- Pre-existing state for the C7 counterexample: the table already holds an
entry for `"x"` before `load` is called. -/
noncomputable def sPre : UCBState :=
  { Q := [("x", 5)], N := [("x", 3)], t := 1, c := 2, decay := 0,
    state_history := [0], reward_history := [0], last_thought := none }

/-- Record with no data entries, for the C7 counterexample. -/
noncomputable def emptyRecord : SaveRecord :=
  { c := 1, t := 4, decay := 1, data := [] }

/-- Counterexample to C7 as stated: loading a record with an empty data
section into a state that already has a table entry does not leave "the
entire ValueTable equal exactly to the record's contents" — the stale entry
`("x", 5)` (count 3) survives the load. -/
theorem load_keeps_stale_entries_cex :
    emptyRecord.data = [] ∧
    dlookup (load sPre emptyRecord).Q "x" = some 5 ∧
    dlookup (load sPre emptyRecord).N "x" = some 3 :=
  ⟨rfl, rfl, rfl⟩

/-- C7 (amended): `load` overwrites the hyperparameters and, for every token
of the record (with duplicate-free record keys), writes exactly the
record's value and count into the tables; token entries present in memory
but absent from the record are retained unchanged — the table is merged,
not replaced. -/
theorem load_overwrites_and_merges (s : UCBState) (r : SaveRecord)
    (hnd : (r.data.map fun e => e.1).Nodup)
    (k : String) (v : ℝ) (n : ℕ) (u : ℝ) (hmem : (k, v, n, u) ∈ r.data)
    (k2 : String) (habs : ∀ e ∈ r.data, e.1 ≠ k2) :
    (load s r).c = r.c ∧ (load s r).t = r.t ∧ (load s r).decay = r.decay ∧
    dlookup (load s r).Q k = some v ∧ dlookup (load s r).N k = some n ∧
    dlookup (load s r).Q k2 = dlookup s.Q k2 ∧
    dlookup (load s r).N k2 = dlookup s.N k2 := by
  obtain ⟨hc, ht, hd⟩ := loadData_params r.data
    { s with c := r.c, t := r.t, decay := r.decay }
  obtain ⟨hQk, hNk⟩ := loadData_mem r.data
    { s with c := r.c, t := r.t, decay := r.decay } k v n u hnd hmem
  obtain ⟨hQ2, hN2⟩ := loadData_not_mem r.data
    { s with c := r.c, t := r.t, decay := r.decay } k2 habs
  exact ⟨hc, ht, hd, hQk, hNk, hQ2, hN2⟩

/-- Record with one entry for the C7 witness. -/
noncomputable def oneRecord : SaveRecord :=
  { c := 1, t := 4, decay := 1, data := [("y", 7, 3, 9)] }

/-- Witness for the amended C7: loading `oneRecord` into `sPre` writes the
record entry `"y"` and keeps the stale entry `"x"`. -/
theorem load_overwrites_and_merges_witness :
    (load sPre oneRecord).c = oneRecord.c ∧
    (load sPre oneRecord).t = oneRecord.t ∧
    (load sPre oneRecord).decay = oneRecord.decay ∧
    dlookup (load sPre oneRecord).Q "y" = some 7 ∧
    dlookup (load sPre oneRecord).N "y" = some 3 ∧
    dlookup (load sPre oneRecord).Q "x" = dlookup sPre.Q "x" ∧
    dlookup (load sPre oneRecord).N "x" = dlookup sPre.N "x" :=
  load_overwrites_and_merges sPre oneRecord (by simp [oneRecord])
    "y" 7 3 9 (by simp [oneRecord]) "x" (by
      intro e he
      simp only [oneRecord, List.mem_singleton] at he
      subst he
      decide)

end UCB
